import Mathlib

/-!
# TradeWiz sorting/benchmarking engine: a shallow embedding

This file embeds the core of the TradeWiz engine
(`src/app/components/TradeWiz.tsx`, plus the unnamed variant
`src/unnamed/part_000`) in Lean and proves the spec claims about it.

Modelling conventions:
* JS numbers holding prices and durations are exact rationals; integer keys
  are `Int` (the JS code only ever builds non-negative keys, which we prove).
* `id`, `displayTime` and time labels are opaque and modelled as `Nat`.
* Ticker strings are modelled as their lists of UTF-16 code units
  (`List Nat`); JS string comparison is code-unit lexicographic.
* Wall-clock measurement (`performance.now()` differences) is modelled by a
  symbolic `measured` argument: the structure of the computation on that
  measurement (the literal-zero early exits, the 2.5 multiplier) is embedded
  exactly.
-/

/-- `type SortKey = price | symbol | timestamp` (TradeWiz.tsx line 7). -/
inductive SortKey where
  | price
  | symbol
  | timestamp
deriving DecidableEq

/-- The `Transaction` interface (TradeWiz.tsx lines 9-16). -/
structure Transaction where
  id : Nat
  symbol : List Nat
  price : ℚ
  timestamp : Nat
  displayTime : Nat := 0
  sortKey : Option Int := none
deriving DecidableEq

/-- The key computation inside `preprocessForRadix` (TradeWiz.tsx lines 55-69):
price is `Math.floor(item.price * 100)`, symbol is the base-256 left fold of
char codes from `reduce((acc, char) => acc * 256 + char.charCodeAt(0), 0)`,
timestamp is used as is. -/
def encodeKey (f : SortKey) (t : Transaction) : Int :=
  match f with
  | .price => Int.floor (t.price * 100)
  | .symbol => t.symbol.foldl (fun (acc : Int) (c : Nat) => acc * 256 + (c : Int)) 0
  | .timestamp => (t.timestamp : Int)

/-- `preprocessForRadix(data, sortKey)`: maps each item to a copy carrying the
encoded key in its `sortKey` field. -/
def preprocessForRadix (data : List Transaction) (f : SortKey) : List Transaction :=
  data.map fun item => { item with sortKey := some (encodeKey f item) }

/-- `Math.floor((item.sortKey ?? 0) / divisor) % 10` (TradeWiz.tsx line 94),
used as a bucket index. On the non-negative keys the engine produces, JS
floor-division and remainder agree with `Int` euclidean `/` and `%`; the
result of `% 10` is in `0..9`, so `toNat` is the exact bucket index. -/
def digitValue (k : Int) (divisor : Int) : Nat :=
  (k / divisor % 10).toNat

/-- `buckets[digitValue].push(item)`: append `t` to bucket `i`. -/
def pushBucket (buckets : List (List Transaction)) (i : Nat) (t : Transaction) :
    List (List Transaction) :=
  buckets.set i (buckets.getD i [] ++ [t])

/-- One digit pass of the radix loop (TradeWiz.tsx lines 89-99): distribute the
current ordering into 10 buckets by the digit at `10 ^ digit`, then
`buckets.flat()`. -/
def bucketPass (keyOf : Transaction → Int) (digit : Nat) (l : List Transaction) :
    List Transaction :=
  (l.foldl (fun bs item => pushBucket bs (digitValue (keyOf item) (10 ^ digit)) item)
    (List.replicate 10 [])).flatten

/-- The `for (let digit = 0; digit < maxDigits; digit++)` loop: `count`
remaining passes starting at digit position `digit`. -/
def radixPasses (keyOf : Transaction → Int) : Nat → Nat → List Transaction → List Transaction
  | _, 0, l => l
  | digit, count + 1, l => radixPasses keyOf (digit + 1) count (bucketPass keyOf digit l)

/-- Decimal digit count, structurally recursive on a fuel bound (any
`fuel ≥ n` gives the digit count of `n`; dividing by 10 only shrinks `n`). -/
def numDigitsAux : Nat → Nat → Nat
  | _, 0 => 1
  | n, fuel + 1 => if n < 10 then 1 else numDigitsAux (n / 10) fuel + 1

/-- Number of decimal digits of a natural number, i.e. `maxVal.toString().length`
for the non-negative `maxVal` the engine computes (`"0".length = 1`). -/
def numDigits (n : Nat) : Nat :=
  numDigitsAux n n

/-- `Math.max(...keys)` on a non-empty list: fold `max` from the first element. -/
def maxKey : List Int → Int
  | [] => 0
  | x :: xs => xs.foldl max x

/-- Result record `{ sorted, time }` of either sorter. -/
structure SortResult where
  sorted : List Transaction
  time : ℚ
deriving DecidableEq

/-- The key the radix passes read: `item.sortKey ?? 0`. -/
def sortKeyOf (t : Transaction) : Int :=
  t.sortKey.getD 0

/-- `radixSort(arr, sortKey)` (TradeWiz.tsx lines 72-103): early exit for
length ≤ 1 returns the input with time literally `0`; otherwise encode, take
`maxDigits` from the decimal length of the maximum key, run the digit passes,
and report the measured wall-clock duration unchanged. `measured` stands for
`endTime - startTime`. (`parallelRadixSort` in part_000 lines 72-101 is the
same computation.) -/
def radixSort (arr : List Transaction) (sortKey : SortKey) (measured : ℚ) : SortResult :=
  if arr.length ≤ 1 then
    { sorted := arr, time := 0 }
  else
    let preprocessed := preprocessForRadix arr sortKey
    let maxVal := maxKey (preprocessed.map fun item => sortKeyOf item)
    let maxDigits := numDigits maxVal.toNat
    { sorted := radixPasses sortKeyOf 0 maxDigits preprocessed, time := measured }

/-- JS `<=` on strings: code-unit lexicographic comparison. -/
def lexLe : List Nat → List Nat → Bool
  | [], _ => true
  | _ :: _, [] => false
  | a :: as, b :: bs => if a < b then true else if b < a then false else lexLe as bs

/-- The merge comparison `leftVal <= rightVal` on the chosen field
(TradeWiz.tsx lines 114-121). -/
def fieldLe (f : SortKey) (a b : Transaction) : Bool :=
  match f with
  | .price => decide (a.price ≤ b.price)
  | .symbol => lexLe a.symbol b.symbol
  | .timestamp => decide (a.timestamp ≤ b.timestamp)

/-- The nested `merge(left, right)` (TradeWiz.tsx lines 109-131): take from the
left while `leftVal <= rightVal`, then append the leftovers. -/
def merge (le : Transaction → Transaction → Bool) :
    List Transaction → List Transaction → List Transaction
  | [], right => right
  | left, [] => left
  | a :: as, b :: bs =>
    if le a b then a :: merge le as (b :: bs) else b :: merge le (a :: as) bs

/-- The nested `sort(array)` (TradeWiz.tsx lines 133-141): halve at
`Math.floor(length / 2)`, recurse, merge. -/
def msort (le : Transaction → Transaction → Bool) : List Transaction → List Transaction
  | [] => []
  | [a] => [a]
  | a :: b :: rest =>
    let l := a :: b :: rest
    merge le (msort le (l.take (l.length / 2))) (msort le (l.drop (l.length / 2)))
termination_by l => l.length
decreasing_by
  · simp only [List.length_take, List.length_cons]
    omega
  · simp only [List.length_drop, List.length_cons]
    omega

/-- `mergeSort(arr, sortKey)` as in TradeWiz.tsx lines 106-151: sort, then
report `demonstrationTime = actualTime * 2.5` where `actualTime` is the
measured wall-clock duration (`measured`). -/
def mergeSort (arr : List Transaction) (sortKey : SortKey) (measured : ℚ) : SortResult :=
  { sorted := msort (fieldLe sortKey) arr, time := measured * (5 / 2) }

/-- `mergeSort(arr, sortKey)` as in part_000 lines 104-145: identical sort, but
the reported time is the measured duration itself. -/
def mergeSortP0 (arr : List Transaction) (sortKey : SortKey) (measured : ℚ) : SortResult :=
  { sorted := msort (fieldLe sortKey) arr, time := measured }

/-- One entry of `performanceData` (TradeWiz.tsx line 25). -/
structure Sample where
  time : Nat
  radixTime : ℚ
  mergeTime : ℚ
  transactions : Nat
  totalTransactions : Nat
deriving DecidableEq

/-- The `currentStats` record (TradeWiz.tsx lines 27-32). -/
structure Stats where
  totalTransactions : Nat
  avgSortTime : ℚ
  radixTime : ℚ
  mergeTime : ℚ
deriving DecidableEq

/-- The mutable engine state: the React state hooks plus the
`transactionBuffer` ref and the running flag. `preprocessedData` exists only
in the TradeWiz.tsx variant; the part_000 tick leaves it unchanged. -/
structure EngineState where
  isRunning : Bool
  transactions : List Transaction
  sortedTransactions : List Transaction
  preprocessedData : List Transaction
  performanceData : List Sample
  currentStats : Stats
  buffer : List Transaction
deriving DecidableEq

/-- JS `arr.slice(-n)`: the last `n` elements (all of them when shorter). -/
def sliceLast (l : List α) (n : Nat) : List α :=
  l.drop (l.length - n)

/-- The method selector `radix | merge`. -/
inductive SortMethod where
  | radix
  | merge
deriving DecidableEq

/-- `sortTransactions(data)` (TradeWiz.tsx lines 154-172): run both sorters
against the same snapshot (`rM`/`mM` are the two measured wall-clock
durations); the caller surfaces the one chosen by `sortMethod`. -/
def sortTransactions (sortBy : SortKey)
    (data : List Transaction) (rM mM : ℚ) : SortResult × SortResult :=
  (radixSort data sortBy rM, mergeSort data sortBy mM)

/-- One scheduler tick of the TradeWiz.tsx variant (lines 177-220).
`batch` is the freshly generated batch (its length is `floor(rate/10)`),
`rM`/`mM` the measured durations of the two sorts if a pass runs,
`timeLabel` the capture-time label.  The flush threshold is 500.

The second `setCurrentStats` updater reads `currentStats.radixTime` and
`currentStats.mergeTime` from the effect closure; because the effect re-runs
whenever those change, the closure holds the committed pre-tick values
`s.currentStats.*`, not the durations just written by `sortTransactions`. -/
def tsxTick (method : SortMethod) (sortBy : SortKey) (s : EngineState)
    (batch : List Transaction) (rM mM : ℚ) (timeLabel : Nat) : EngineState :=
  let buf := s.buffer ++ batch
  if 500 ≤ buf.length then
    let radixResult := radixSort buf sortBy rM
    let mergeResult := mergeSort buf sortBy mM
    let sorted := match method with
      | .radix => radixResult.sorted
      | .merge => mergeResult.sorted
    -- setCurrentStats inside sortTransactions
    let stats1 : Stats :=
      { s.currentStats with radixTime := radixResult.time, mergeTime := mergeResult.time }
    let newTotal := stats1.totalTransactions + buf.length
    -- outer setCurrentStats: average from the stale closure values
    let stats2 : Stats :=
      { stats1 with
          totalTransactions := newTotal
          avgSortTime := (s.currentStats.radixTime + s.currentStats.mergeTime) / 2 }
    { s with
        transactions := sliceLast (sliceLast s.transactions 1000 ++ buf) 2000
        sortedTransactions := sliceLast sorted 500
        preprocessedData :=
          if buf.length ≤ 1 then [] else (preprocessForRadix buf sortBy).take 20
        performanceData := sliceLast s.performanceData 20 ++
          [{ time := timeLabel
             radixTime := s.currentStats.radixTime
             mergeTime := s.currentStats.mergeTime
             transactions := buf.length
             totalTransactions := newTotal }]
        currentStats := stats2
        buffer := [] }
  else
    { s with
        buffer := buf
        currentStats :=
          { s.currentStats with
              totalTransactions := s.currentStats.totalTransactions + batch.length } }

/-- One scheduler tick of the part_000 variant (lines 171-214).  The flush
threshold is 100, `mergeSort` reports the unscaled measured time, and both the
average and the appended sample are computed from `prev` inside the updater,
i.e. from the durations just written for this very pass. -/
def p0Tick (method : SortMethod) (sortBy : SortKey) (s : EngineState)
    (batch : List Transaction) (rM mM : ℚ) (timeLabel : Nat) : EngineState :=
  let buf := s.buffer ++ batch
  if 100 ≤ buf.length then
    let radixResult := radixSort buf sortBy rM
    let mergeResult := mergeSortP0 buf sortBy mM
    let sorted := match method with
      | .radix => radixResult.sorted
      | .merge => mergeResult.sorted
    let stats1 : Stats :=
      { s.currentStats with radixTime := radixResult.time, mergeTime := mergeResult.time }
    let newTotal := stats1.totalTransactions + buf.length
    let stats2 : Stats :=
      { stats1 with
          totalTransactions := newTotal
          avgSortTime := (stats1.radixTime + stats1.mergeTime) / 2 }
    { s with
        transactions := sliceLast (sliceLast s.transactions 1000 ++ buf) 2000
        sortedTransactions := sliceLast sorted 500
        performanceData := sliceLast s.performanceData 20 ++
          [{ time := timeLabel
             radixTime := stats1.radixTime
             mergeTime := stats1.mergeTime
             transactions := buf.length
             totalTransactions := newTotal }]
        currentStats := stats2
        buffer := [] }
  else
    { s with
        buffer := buf
        currentStats :=
          { s.currentStats with
              totalTransactions := s.currentStats.totalTransactions + batch.length } }

/-- The interval only runs while `isRunning`; a tick on a stopped engine is a
no-op (the `useEffect` cleared the interval). -/
def schedStep (method : SortMethod) (sortBy : SortKey) (s : EngineState)
    (batch : List Transaction) (rM mM : ℚ) (timeLabel : Nat) : EngineState :=
  if s.isRunning then tsxTick method sortBy s batch rM mM timeLabel else s

/-- `resetData()` (TradeWiz.tsx lines 234-249): stop, clear lists and buffer,
zero the stats.  `preprocessedData` is not touched by `resetData`. -/
def resetData (s : EngineState) : EngineState :=
  { isRunning := false
    transactions := []
    sortedTransactions := []
    preprocessedData := s.preprocessedData
    performanceData := []
    currentStats := { totalTransactions := 0, avgSortTime := 0, radixTime := 0, mergeTime := 0 }
    buffer := [] }

/-- The `performanceData` update in isolation (TradeWiz.tsx line 201):
`[...prevData.slice(-20), sample]`. -/
def pushSample (prevData : List Sample) (sample : Sample) : List Sample :=
  sliceLast prevData 20 ++ [sample]

/-- Histories reachable by the engine: empty at start (and after reset), then
grown one `pushSample` at a time. -/
inductive ReachableHistory : List Sample → Prop
  | init : ReachableHistory []
  | step (h : List Sample) (sample : Sample) :
      ReachableHistory h → ReachableHistory (pushSample h sample)

/-- The fixed symbol alphabet (TradeWiz.tsx line 38), as code-unit lists:
AAPL, TSLA, AMZN, GOOGL, MSFT, NVDA, META, NFLX, AMD, INTC. -/
def stockSymbols : List (List Nat) :=
  [[65, 65, 80, 76], [84, 83, 76, 65], [65, 77, 90, 78], [71, 79, 79, 71, 76],
   [77, 83, 70, 84], [78, 86, 68, 65], [77, 69, 84, 65], [78, 70, 76, 88],
   [65, 77, 68], [73, 78, 84, 67]]

/-- The symbol encoder on raw code-unit lists, exactly the JS
`reduce((acc, char) => acc * 256 + char.charCodeAt(0), 0)`. -/
def encodeSymbol (codes : List Nat) : Int :=
  codes.foldl (fun (acc : Int) (c : Nat) => acc * 256 + (c : Int)) 0

/-- A price-only transaction used in concrete scenario checks. -/
def txPrice (i : Nat) (p : ℚ) : Transaction :=
  { id := i, symbol := [], price := p, timestamp := 0 }

/-- A transaction carrying the GOOGL ticker (char codes of "GOOGL"). -/
def txGOOGL : Transaction :=
  { id := 0, symbol := [71, 79, 79, 71, 76], price := 1, timestamp := 0 }

/-- A transaction carrying the INTC ticker (char codes of "INTC"). -/
def txINTC : Transaction :=
  { id := 1, symbol := [73, 78, 84, 67], price := 1, timestamp := 0 }

/-- A zero sample, used to build concrete histories. -/
def sampleZero : Sample :=
  { time := 0, radixTime := 0, mergeTime := 0, transactions := 0, totalTransactions := 0 }

/-- `n` consecutive history appends starting from the empty history. -/
def pushIter : Nat → List Sample
  | 0 => []
  | n + 1 => pushSample (pushIter n) sampleZero

/-- A concrete engine state whose last pass measured radix 1 ms and merge 3 ms. -/
def engineState0 : EngineState :=
  { isRunning := true
    transactions := []
    sortedTransactions := []
    preprocessedData := []
    performanceData := []
    currentStats := { totalTransactions := 0, avgSortTime := 2, radixTime := 1, mergeTime := 3 }
    buffer := [] }

/-- A batch of 500 identical transactions, enough to reach the flush threshold. -/
def batch500 : List Transaction :=
  List.replicate 500 (txPrice 7 1)

/-! ## Merge sort: permutation, sortedness, stability -/

theorem merge_perm (le : Transaction → Transaction → Bool) :
    ∀ l r, List.Perm (merge le l r) (l ++ r)
  | [], r => by simp [merge]
  | a :: as, [] => by simp [merge]
  | a :: as, b :: bs => by
    simp only [merge]
    split
    · exact ((merge_perm le as (b :: bs)).cons a)
    · exact ((merge_perm le (a :: as) bs).cons b).trans List.perm_middle.symm
termination_by l r => l.length + r.length

theorem mem_merge (le : Transaction → Transaction → Bool) {x : Transaction} {l r : List Transaction} :
    x ∈ merge le l r ↔ x ∈ l ∨ x ∈ r := by
  rw [(merge_perm le l r).mem_iff, List.mem_append]

theorem merge_sorted (le : Transaction → Transaction → Bool)
    (htot : ∀ a b, le a b = true ∨ le b a = true)
    (htrans : ∀ a b c, le a b = true → le b c = true → le a c = true) :
    ∀ l r, List.Pairwise (fun a b => le a b = true) l →
      List.Pairwise (fun a b => le a b = true) r →
      List.Pairwise (fun a b => le a b = true) (merge le l r)
  | [], r, _, hr => by simpa [merge] using hr
  | a :: as, [], hl, _ => by simpa [merge] using hl
  | a :: as, b :: bs, hl, hr => by
    simp only [merge]
    rcases List.pairwise_cons.mp hl with ⟨ha, has⟩
    rcases List.pairwise_cons.mp hr with ⟨hb, hbs⟩
    split
    · next hab =>
      refine List.pairwise_cons.mpr ⟨?_, merge_sorted le htot htrans as (b :: bs) has hr⟩
      intro x hx
      rcases (mem_merge le).mp hx with h | h
      · exact ha x h
      · rcases List.mem_cons.mp h with rfl | h
        · exact hab
        · exact htrans a b x hab (hb x h)
    · next hab =>
      have hba : le b a = true := (htot a b).resolve_left hab
      refine List.pairwise_cons.mpr ⟨?_, merge_sorted le htot htrans (a :: as) bs hl hbs⟩
      intro x hx
      rcases (mem_merge le).mp hx with h | h
      · rcases List.mem_cons.mp h with rfl | h
        · exact hba
        · exact htrans b a x hba (ha x h)
      · exact hb x h
termination_by l r => l.length + r.length

theorem merge_filter (le : Transaction → Transaction → Bool) (q : Transaction → Bool)
    (htrans : ∀ a b c, le a b = true → le b c = true → le a c = true)
    (hq : ∀ x y, q x = true → q y = true → le x y = true) :
    ∀ l r, List.Pairwise (fun a b => le a b = true) l →
      (merge le l r).filter q = l.filter q ++ r.filter q
  | [], r, _ => by simp [merge]
  | a :: as, [], _ => by simp [merge]
  | a :: as, b :: bs, hl => by
    simp only [merge]
    rcases List.pairwise_cons.mp hl with ⟨ha, has⟩
    split
    · next hab =>
      simp only [List.filter_cons, merge_filter le q htrans hq as (b :: bs) has]
      split <;> simp
    · next hab =>
      simp only [List.filter_cons, merge_filter le q htrans hq (a :: as) bs hl]
      rcases hqb : q b with _ | _
      · simp
      · have hnil : (a :: as).filter q = [] := by
          rw [List.filter_eq_nil_iff]
          intro x hx hqx
          rcases List.mem_cons.mp hx with rfl | hmem
          · exact hab (hq x b hqx hqb)
          · exact hab (htrans a x b (ha x hmem) (hq x b hqx hqb))
        rw [List.filter_cons] at hnil
        simp [hnil]

theorem msort_perm (le : Transaction → Transaction → Bool) :
    ∀ l, List.Perm (msort le l) l
  | [] => by simp [msort]
  | [a] => by simp [msort]
  | a :: b :: rest => by
    have h1 := msort_perm le ((a :: b :: rest).take ((a :: b :: rest).length / 2))
    have h2 := msort_perm le ((a :: b :: rest).drop ((a :: b :: rest).length / 2))
    rw [msort]
    refine (merge_perm le _ _).trans ((h1.append h2).trans ?_)
    rw [List.take_append_drop]
termination_by l => l.length
decreasing_by
  all_goals simp only [List.length_take, List.length_drop, List.length_cons]
  all_goals omega

theorem msort_sorted (le : Transaction → Transaction → Bool)
    (htot : ∀ a b, le a b = true ∨ le b a = true)
    (htrans : ∀ a b c, le a b = true → le b c = true → le a c = true) :
    ∀ l, List.Pairwise (fun a b => le a b = true) (msort le l)
  | [] => by simp [msort]
  | [a] => by simp [msort]
  | a :: b :: rest => by
    rw [msort]
    exact merge_sorted le htot htrans _ _
      (msort_sorted le htot htrans _) (msort_sorted le htot htrans _)
termination_by l => l.length
decreasing_by
  all_goals simp only [List.length_take, List.length_drop, List.length_cons]
  all_goals omega

theorem msort_filter (le : Transaction → Transaction → Bool) (q : Transaction → Bool)
    (htot : ∀ a b, le a b = true ∨ le b a = true)
    (htrans : ∀ a b c, le a b = true → le b c = true → le a c = true)
    (hq : ∀ x y, q x = true → q y = true → le x y = true) :
    ∀ l, (msort le l).filter q = l.filter q
  | [] => by simp [msort]
  | [a] => by simp [msort]
  | a :: b :: rest => by
    rw [msort]
    rw [merge_filter le q htrans hq _ _ (msort_sorted le htot htrans _)]
    rw [msort_filter le q htot htrans hq _, msort_filter le q htot htrans hq _]
    rw [← List.filter_append, List.take_append_drop]
termination_by l => l.length
decreasing_by
  all_goals simp only [List.length_take, List.length_drop, List.length_cons]
  all_goals omega

/-! ## The field comparison is a total preorder -/

theorem lexLe_refl : ∀ a : List Nat, lexLe a a = true
  | [] => rfl
  | c :: cs => by simp [lexLe, lexLe_refl cs]

theorem lexLe_total : ∀ a b : List Nat, lexLe a b = true ∨ lexLe b a = true
  | [], _ => Or.inl rfl
  | _ :: _, [] => Or.inr rfl
  | a :: as, b :: bs => by
    simp only [lexLe]
    rcases Nat.lt_trichotomy a b with h | h | h
    · left; simp [h]
    · subst h
      simpa [Nat.lt_irrefl] using lexLe_total as bs
    · right; simp [h]

theorem lexLe_trans : ∀ a b c : List Nat, lexLe a b = true → lexLe b c = true → lexLe a c = true
  | [], _, _, _, _ => rfl
  | a :: as, [], _, h, _ => by simp [lexLe] at h
  | a :: as, b :: bs, [], _, h => by simp [lexLe] at h
  | a :: as, b :: bs, c :: cs, h1, h2 => by
    simp only [lexLe] at h1 h2 ⊢
    rcases Nat.lt_trichotomy a b with hab | hab | hab
    · rcases Nat.lt_trichotomy b c with hbc | hbc | hbc
      · simp [Nat.lt_trans hab hbc]
      · subst hbc; simp [hab]
      · simp [hab, Nat.lt_asymm hab, hbc, Nat.lt_asymm hbc] at h2
    · subst hab
      rcases Nat.lt_trichotomy a c with hac | hac | hac
      · simp [hac]
      · subst hac
        simp only [Nat.lt_irrefl, if_false] at h1 h2 ⊢
        exact lexLe_trans as bs cs h1 h2
      · simp [Nat.lt_asymm hac, hac] at h2
    · simp [Nat.lt_asymm hab, hab] at h1

theorem fieldLe_total (f : SortKey) (a b : Transaction) :
    fieldLe f a b = true ∨ fieldLe f b a = true := by
  cases f
  · simp only [fieldLe, decide_eq_true_eq]
    exact le_total a.price b.price
  · exact lexLe_total a.symbol b.symbol
  · simp only [fieldLe, decide_eq_true_eq]
    exact Nat.le_total a.timestamp b.timestamp

theorem fieldLe_trans (f : SortKey) (a b c : Transaction) :
    fieldLe f a b = true → fieldLe f b c = true → fieldLe f a c = true := by
  cases f
  · simp only [fieldLe, decide_eq_true_eq]
    exact le_trans
  · exact lexLe_trans a.symbol b.symbol c.symbol
  · simp only [fieldLe, decide_eq_true_eq]
    exact Nat.le_trans

/-! ## Radix sort: the bucket pass -/

theorem digitValue_lt (k divisor : Int) : digitValue k divisor < 10 := by
  rw [digitValue]
  have h1 : 0 ≤ k / divisor % 10 := Int.emod_nonneg _ (by omega)
  have h2 : k / divisor % 10 < 10 := Int.emod_lt_of_pos _ (by omega)
  omega

theorem getD_set (bs : List (List Transaction)) (j : Nat) (v : List Transaction)
    (hj : j < bs.length) (i : Nat) :
    (bs.set j v).getD i [] = if j = i then v else bs.getD i [] := by
  simp only [List.getD_eq_getElem?_getD]
  by_cases hij : j = i
  · subst hij
    rw [List.getElem?_set_self hj]
    simp
  · rw [List.getElem?_set_ne hij]
    simp [hij]

theorem foldl_push_length (dig : Transaction → Nat) :
    ∀ (l : List Transaction) (bs : List (List Transaction)),
      (l.foldl (fun acc t => pushBucket acc (dig t) t) bs).length = bs.length
  | [], _ => rfl
  | t :: l, bs => by
    rw [List.foldl_cons, foldl_push_length dig l]
    simp [pushBucket]

theorem foldl_push_getD (dig : Transaction → Nat) :
    ∀ (l : List Transaction) (bs : List (List Transaction)), (∀ t, dig t < bs.length) →
      ∀ i, (l.foldl (fun acc t => pushBucket acc (dig t) t) bs).getD i [] =
        bs.getD i [] ++ l.filter (fun t => dig t == i)
  | [], _, _, _ => by simp
  | t :: l, bs, h, i => by
    rw [List.foldl_cons]
    have hlen : ∀ x, dig x < (pushBucket bs (dig t) t).length := by
      intro x
      simpa [pushBucket] using h x
    rw [foldl_push_getD dig l (pushBucket bs (dig t) t) hlen i]
    rw [pushBucket, getD_set bs (dig t) _ (h t) i]
    by_cases hdi : dig t = i
    · subst hdi
      simp [List.filter_cons]
    · simp [hdi, List.filter_cons, Ne.symm hdi]

/-- The bucket array built by one digit pass is exactly the list of
digit-classes of the input, in digit order. -/
theorem bucketPass_eq (keyOf : Transaction → Int) (d : Nat) (l : List Transaction) :
    bucketPass keyOf d l =
      ((List.range 10).map fun i =>
        l.filter (fun t => digitValue (keyOf t) (10 ^ d) == i)).flatten := by
  rw [bucketPass]
  congr 1
  have hlen : (l.foldl (fun bs item => pushBucket bs (digitValue (keyOf item) (10 ^ d)) item)
      (List.replicate 10 [])).length = 10 := by
    rw [foldl_push_length]
    simp
  apply List.ext_getElem
  · rw [hlen, List.length_map, List.length_range]
  · intro i h1 h2
    have hiten : i < 10 := by
      rw [hlen] at h1
      exact h1
    have hD : ∀ t : Transaction,
        digitValue (keyOf t) (10 ^ d) < (List.replicate 10 ([] : List Transaction)).length := by
      intro t
      simpa using digitValue_lt (keyOf t) (10 ^ d)
    have hgd := foldl_push_getD (fun t => digitValue (keyOf t) (10 ^ d)) l (List.replicate 10 []) hD i
    have hrep : (List.replicate 10 ([] : List Transaction)).getD i [] = [] := by
      rw [List.getD_eq_getElem?_getD, List.getElem?_replicate]
      simp [hiten]
    have hgd2 : (l.foldl (fun bs item => pushBucket bs (digitValue (keyOf item) (10 ^ d)) item)
        (List.replicate 10 [])).getD i [] = l.filter (fun t => digitValue (keyOf t) (10 ^ d) == i) := by
      rw [hgd, hrep, List.nil_append]
    have hL : (l.foldl (fun bs item => pushBucket bs (digitValue (keyOf item) (10 ^ d)) item)
        (List.replicate 10 []))[i] = (l.foldl (fun bs item =>
          pushBucket bs (digitValue (keyOf item) (10 ^ d)) item) (List.replicate 10 [])).getD i [] := by
      rw [List.getD_eq_getElem?_getD, List.getElem?_eq_getElem h1]
      rfl
    rw [hL, hgd2]
    simp

/-! ## Radix pass: permutation and stability -/

theorem filter_split_perm (p q : Transaction → Bool) (hdisj : ∀ t, ¬(p t = true ∧ q t = true)) :
    ∀ l : List Transaction,
      List.Perm (l.filter p ++ l.filter q) (l.filter fun t => p t || q t)
  | [] => by simp
  | t :: l => by
    rcases hp : p t with _ | _ <;> rcases hq : q t with _ | _
    · simpa [List.filter_cons, hp, hq] using filter_split_perm p q hdisj l
    · simp only [List.filter_cons, hp, hq, Bool.false_or, if_neg, if_pos, Bool.false_eq_true,
        not_false_eq_true, cond_false, cond_true]
      exact List.perm_middle.trans ((filter_split_perm p q hdisj l).cons t)
    · simp only [List.filter_cons, hp, hq, Bool.true_or, Bool.false_eq_true, not_false_eq_true,
        if_neg, if_pos, cond_false, cond_true, List.cons_append]
      exact (filter_split_perm p q hdisj l).cons t
    · exact absurd ⟨hp, hq⟩ (hdisj t)

theorem flatten_digit_filters_perm (dig : Transaction → Nat) :
    ∀ (n : Nat) (l : List Transaction),
      List.Perm (((List.range n).map fun i => l.filter fun t => dig t == i).flatten)
        (l.filter fun t => decide (dig t < n))
  | 0, l => by simp
  | n + 1, l => by
    rw [List.range_succ, List.map_append, List.flatten_append]
    simp only [List.map_cons, List.map_nil, List.flatten_cons, List.flatten_nil, List.append_nil]
    refine ((flatten_digit_filters_perm dig n l).append (List.Perm.refl _)).trans ?_
    refine (filter_split_perm _ _ ?_ l).trans ?_
    · intro t ht
      rcases ht with ⟨h1, h2⟩
      simp only [decide_eq_true_eq] at h1
      simp only [beq_iff_eq] at h2
      omega
    · have heq : (l.filter fun t => decide (dig t < n) || (dig t == n)) =
          l.filter fun t => decide (dig t < n + 1) := by
        apply List.filter_congr
        intro t _
        rw [Bool.eq_iff_iff]
        simp only [Bool.or_eq_true, decide_eq_true_eq, beq_iff_eq]
        omega
      rw [heq]

theorem bucketPass_perm (keyOf : Transaction → Int) (d : Nat) (l : List Transaction) :
    List.Perm (bucketPass keyOf d l) l := by
  have hall : (l.filter fun t => decide (digitValue (keyOf t) (10 ^ d) < 10)) = l := by
    rw [List.filter_eq_self]
    intro t _
    simpa using digitValue_lt (keyOf t) (10 ^ d)
  have h2 := flatten_digit_filters_perm (fun t => digitValue (keyOf t) (10 ^ d)) 10 l
  rw [hall] at h2
  rw [bucketPass_eq]
  exact h2

theorem flatten_ite (j : Nat) (L : List Transaction) :
    ∀ n, j < n → ((List.range n).map fun i => if i = j then L else []).flatten = L
  | 0, h => absurd h (Nat.not_lt_zero j)
  | n + 1, h => by
    rw [List.range_succ, List.map_append, List.flatten_append]
    simp only [List.map_cons, List.map_nil, List.flatten_cons, List.flatten_nil, List.append_nil]
    rcases Nat.lt_or_ge j n with hj | hj
    · rw [flatten_ite j L n hj, if_neg (by omega)]
      simp
    · have hjn : n = j := by omega
      subst hjn
      rw [if_pos rfl]
      have hnil : ((List.range n).map fun i => if i = n then L else []).flatten =
          ([] : List Transaction) := by
        rw [List.flatten_eq_nil_iff]
        intro x hx
        rcases List.mem_map.mp hx with ⟨i, hi, rfl⟩
        rw [if_neg]
        intro he
        subst he
        exact absurd (List.mem_range.mp hi) (Nat.lt_irrefl _)
      rw [hnil, List.nil_append]

theorem bucketPass_filter (keyOf : Transaction → Int) (d : Nat) (q : Transaction → Bool)
    (hq : ∀ x y, q x = true → q y = true → keyOf x = keyOf y) (l : List Transaction) :
    (bucketPass keyOf d l).filter q = l.filter q := by
  rw [bucketPass_eq, List.filter_flatten, List.map_map]
  by_cases hex : ∃ x, x ∈ l ∧ q x = true
  · obtain ⟨x0, hx0l, hx0⟩ := hex
    have hmap : (List.range 10).map ((List.filter q) ∘ fun i =>
          l.filter fun t => digitValue (keyOf t) (10 ^ d) == i) =
        (List.range 10).map fun i =>
          if i = digitValue (keyOf x0) (10 ^ d) then l.filter q else [] := by
      apply List.map_congr_left
      intro i _
      simp only [Function.comp_apply, List.filter_filter]
      by_cases hij : i = digitValue (keyOf x0) (10 ^ d)
      · subst hij
        rw [if_pos rfl]
        apply List.filter_congr
        intro t _
        rcases hqt : q t with _ | _
        · simp
        · have hk : keyOf t = keyOf x0 := hq t x0 hqt hx0
          simp [hk]
      · rw [if_neg hij, List.filter_eq_nil_iff]
        intro t _ hqt
        rcases Bool.and_eq_true _ _ |>.mp hqt with ⟨hq1, hq2⟩
        have hk : keyOf t = keyOf x0 := hq t x0 hq1 hx0
        rw [hk] at hq2
        exact hij (beq_iff_eq.mp hq2).symm
    rw [hmap]
    exact flatten_ite (digitValue (keyOf x0) (10 ^ d)) (l.filter q) 10 (digitValue_lt _ _)
  · push_neg at hex
    have hnl : l.filter q = [] := by
      rw [List.filter_eq_nil_iff]
      intro t ht hqt
      exact absurd hqt (by simpa using hex t ht)
    rw [hnl, List.flatten_eq_nil_iff]
    intro x hx
    rcases List.mem_map.mp hx with ⟨i, _, rfl⟩
    simp only [Function.comp_apply, List.filter_filter]
    rw [List.filter_eq_nil_iff]
    intro t ht hqt
    rcases Bool.and_eq_true _ _ |>.mp hqt with ⟨hq1, _⟩
    exact absurd hq1 (by simpa using hex t ht)

/-! ## Radix sort: sortedness -/

theorem digitValue_toNat (k : Int) (hk : 0 ≤ k) (d : Nat) :
    digitValue k (10 ^ d) = k.toNat / 10 ^ d % 10 := by
  obtain ⟨n, rfl⟩ := Int.eq_ofNat_of_zero_le hk
  rw [digitValue]
  norm_cast

theorem mod_pow_succ_eq (k d : Nat) :
    k % 10 ^ (d + 1) = k % 10 ^ d + 10 ^ d * (k / 10 ^ d % 10) := by
  rw [Nat.pow_succ]
  exact Nat.mod_mul

theorem pairwise_of_rel_true {R : Transaction → Transaction → Prop} (h : ∀ a b, R a b) :
    ∀ l : List Transaction, List.Pairwise R l
  | [] => List.Pairwise.nil
  | a :: l => List.Pairwise.cons (fun b _ => h a b) (pairwise_of_rel_true h l)

theorem bucketPass_sorted (keyOf : Transaction → Int) (d : Nat) (l : List Transaction)
    (hpos : ∀ t ∈ l, 0 ≤ keyOf t)
    (hsort : List.Pairwise (fun a b =>
      (keyOf a).toNat % 10 ^ d ≤ (keyOf b).toNat % 10 ^ d) l) :
    List.Pairwise (fun a b =>
      (keyOf a).toNat % 10 ^ (d + 1) ≤ (keyOf b).toNat % 10 ^ (d + 1)) (bucketPass keyOf d l) := by
  rw [bucketPass_eq, List.pairwise_flatten]
  constructor
  · intro blk hblk
    rcases List.mem_map.mp hblk with ⟨i, _, rfl⟩
    have hsub : List.Pairwise (fun a b =>
        (keyOf a).toNat % 10 ^ d ≤ (keyOf b).toNat % 10 ^ d)
        (l.filter fun t => digitValue (keyOf t) (10 ^ d) == i) :=
      hsort.sublist (List.filter_sublist l)
    refine hsub.imp_of_mem ?_
    intro a b ha hb hle
    have hfa := List.mem_filter.mp ha
    have hfb := List.mem_filter.mp hb
    have hpa : 0 ≤ keyOf a := hpos a hfa.1
    have hpb : 0 ≤ keyOf b := hpos b hfb.1
    have hda : (keyOf a).toNat / 10 ^ d % 10 = i := by
      rw [← digitValue_toNat (keyOf a) hpa d]
      exact beq_iff_eq.mp hfa.2
    have hdb : (keyOf b).toNat / 10 ^ d % 10 = i := by
      rw [← digitValue_toNat (keyOf b) hpb d]
      exact beq_iff_eq.mp hfb.2
    rw [mod_pow_succ_eq, mod_pow_succ_eq, hda, hdb]
    omega
  · rw [List.pairwise_map]
    refine (List.pairwise_lt_range 10).imp_of_mem ?_
    intro i j _ _ hij x hx y hy
    have hfx := List.mem_filter.mp hx
    have hfy := List.mem_filter.mp hy
    have hpx : 0 ≤ keyOf x := hpos x hfx.1
    have hpy : 0 ≤ keyOf y := hpos y hfy.1
    have hdx : (keyOf x).toNat / 10 ^ d % 10 = i := by
      rw [← digitValue_toNat (keyOf x) hpx d]
      exact beq_iff_eq.mp hfx.2
    have hdy : (keyOf y).toNat / 10 ^ d % 10 = j := by
      rw [← digitValue_toNat (keyOf y) hpy d]
      exact beq_iff_eq.mp hfy.2
    have hx10 : (keyOf x).toNat % 10 ^ d < 10 ^ d := Nat.mod_lt _ (Nat.pos_pow_of_pos d (by omega))
    rw [mod_pow_succ_eq, mod_pow_succ_eq, hdx, hdy]
    have hmul := Nat.mul_le_mul_left (10 ^ d) hij
    rw [Nat.mul_succ] at hmul
    omega

theorem radixPasses_perm (keyOf : Transaction → Int) :
    ∀ (count digit : Nat) (l : List Transaction), List.Perm (radixPasses keyOf digit count l) l
  | 0, _, l => List.Perm.refl l
  | count + 1, digit, l => by
    rw [radixPasses]
    exact (radixPasses_perm keyOf count (digit + 1) _).trans (bucketPass_perm keyOf digit l)

theorem radixPasses_filter (keyOf : Transaction → Int) (q : Transaction → Bool)
    (hq : ∀ x y, q x = true → q y = true → keyOf x = keyOf y) :
    ∀ (count digit : Nat) (l : List Transaction),
      (radixPasses keyOf digit count l).filter q = l.filter q
  | 0, _, _ => rfl
  | count + 1, digit, l => by
    rw [radixPasses, radixPasses_filter keyOf q hq count (digit + 1) _,
      bucketPass_filter keyOf digit q hq l]

theorem radixPasses_sorted (keyOf : Transaction → Int) :
    ∀ (count digit : Nat) (l : List Transaction), (∀ t ∈ l, 0 ≤ keyOf t) →
      List.Pairwise (fun a b =>
        (keyOf a).toNat % 10 ^ digit ≤ (keyOf b).toNat % 10 ^ digit) l →
      List.Pairwise (fun a b =>
        (keyOf a).toNat % 10 ^ (digit + count) ≤ (keyOf b).toNat % 10 ^ (digit + count))
        (radixPasses keyOf digit count l)
  | 0, digit, l, _, hs => hs
  | count + 1, digit, l, hpos, hs => by
    rw [radixPasses]
    have hpos2 : ∀ t ∈ bucketPass keyOf digit l, 0 ≤ keyOf t := fun t ht =>
      hpos t ((bucketPass_perm keyOf digit l).mem_iff.mp ht)
    have hrec := radixPasses_sorted keyOf count (digit + 1) (bucketPass keyOf digit l) hpos2
      (bucketPass_sorted keyOf digit l hpos hs)
    have harith : digit + 1 + count = digit + (count + 1) := by omega
    rw [harith] at hrec
    exact hrec

/-! ## Digit-count and maximum-key bounds -/

theorem lt_pow_numDigitsAux : ∀ (fuel n : Nat), n ≤ fuel → n < 10 ^ numDigitsAux n fuel
  | 0, n, h => by
    have : n = 0 := by omega
    subst this
    simp [numDigitsAux]
  | fuel + 1, n, h => by
    rw [numDigitsAux]
    by_cases h10 : n < 10
    · simp [h10]
    · have hd : n / 10 ≤ fuel := by omega
      have hrec := lt_pow_numDigitsAux fuel (n / 10) hd
      simp only [h10, if_false]
      rw [Nat.pow_succ]
      omega

theorem lt_pow_numDigits (n : Nat) : n < 10 ^ numDigits n :=
  lt_pow_numDigitsAux n n (Nat.le_refl n)

theorem le_foldl_max (xs : List Int) : ∀ (a : Int),
    a ≤ xs.foldl max a ∧ ∀ k ∈ xs, k ≤ xs.foldl max a := by
  induction xs with
  | nil => exact fun a => ⟨le_refl a, by simp⟩
  | cons x xs ih =>
    intro a
    constructor
    · exact le_trans (le_max_left a x) (ih (max a x)).1
    · intro k hk
      rcases List.mem_cons.mp hk with rfl | hk
      · exact le_trans (le_max_right a k) (ih (max a k)).1
      · exact (ih (max a x)).2 k hk

theorem le_maxKey (xs : List Int) (k : Int) (hk : k ∈ xs) : k ≤ maxKey xs := by
  cases xs with
  | nil => cases hk
  | cons x xs =>
    rw [maxKey]
    rcases List.mem_cons.mp hk with rfl | hk
    · exact (le_foldl_max xs k).1
    · exact (le_foldl_max xs x).2 k hk

/-! ## radixSort: top-level properties -/

theorem radixSort_short (arr : List Transaction) (f : SortKey) (measured : ℚ)
    (h : arr.length ≤ 1) : radixSort arr f measured = { sorted := arr, time := 0 } := by
  rw [radixSort, if_pos h]

theorem radixSort_run (arr : List Transaction) (f : SortKey) (measured : ℚ)
    (h : ¬arr.length ≤ 1) :
    radixSort arr f measured =
      { sorted := radixPasses sortKeyOf 0
          (numDigits (maxKey ((preprocessForRadix arr f).map sortKeyOf)).toNat)
          (preprocessForRadix arr f)
        time := measured } := by
  rw [radixSort, if_neg h]

theorem sortKeyOf_preprocess (f : SortKey) (t : Transaction) :
    sortKeyOf { t with sortKey := some (encodeKey f t) } = encodeKey f t := rfl

theorem encodeKey_set_sortKey (f : SortKey) (t : Transaction) (k : Option Int) :
    encodeKey f { t with sortKey := k } = encodeKey f t := by
  cases f <;> rfl

theorem radixSort_perm_preprocess (arr : List Transaction) (f : SortKey) (measured : ℚ)
    (h2 : 2 ≤ arr.length) :
    List.Perm (radixSort arr f measured).sorted (preprocessForRadix arr f) := by
  rw [radixSort_run arr f measured (by omega)]
  exact radixPasses_perm sortKeyOf _ 0 _

theorem radixSort_perm_ids (arr : List Transaction) (f : SortKey) (measured : ℚ) :
    List.Perm ((radixSort arr f measured).sorted.map Transaction.id) (arr.map Transaction.id) := by
  by_cases h : arr.length ≤ 1
  · rw [radixSort_short arr f measured h]
  · rw [radixSort_run arr f measured h]
    refine ((radixPasses_perm sortKeyOf _ 0 (preprocessForRadix arr f)).map Transaction.id).trans ?_
    rw [preprocessForRadix, List.map_map]
    exact List.Perm.refl _

theorem radixSort_keys_set (arr : List Transaction) (f : SortKey) (measured : ℚ)
    (h2 : 2 ≤ arr.length) :
    ∀ t ∈ (radixSort arr f measured).sorted, t.sortKey = some (encodeKey f t) := by
  intro t ht
  have hmem : t ∈ preprocessForRadix arr f :=
    (radixSort_perm_preprocess arr f measured h2).mem_iff.mp ht
  rcases List.mem_map.mp hmem with ⟨orig, _, rfl⟩
  rw [encodeKey_set_sortKey f orig (some (encodeKey f orig))]

theorem radixSort_sorted_key (arr : List Transaction) (f : SortKey) (measured : ℚ)
    (hpos : ∀ t ∈ arr, 0 ≤ encodeKey f t) :
    List.Pairwise (fun a b => sortKeyOf a ≤ sortKeyOf b) (radixSort arr f measured).sorted := by
  by_cases h : arr.length ≤ 1
  · rw [radixSort_short arr f measured h]
    match arr, h with
    | [], _ => exact List.Pairwise.nil
    | [a], _ => simp
  · rw [radixSort_run arr f measured h]
    have hpre_pos : ∀ t ∈ preprocessForRadix arr f, 0 ≤ sortKeyOf t := by
      intro t ht
      rcases List.mem_map.mp ht with ⟨orig, ho, rfl⟩
      rw [sortKeyOf_preprocess]
      exact hpos orig ho
    have hstart : List.Pairwise
        (fun a b => (sortKeyOf a).toNat % 10 ^ 0 ≤ (sortKeyOf b).toNat % 10 ^ 0)
        (preprocessForRadix arr f) :=
      pairwise_of_rel_true (fun a b => by simp [Nat.pow_zero, Nat.mod_one]) _
    have hs := radixPasses_sorted sortKeyOf
      (numDigits (maxKey ((preprocessForRadix arr f).map sortKeyOf)).toNat) 0
      (preprocessForRadix arr f) hpre_pos hstart
    rw [Nat.zero_add] at hs
    refine hs.imp_of_mem ?_
    intro a b ha hb hle
    have hamem : a ∈ preprocessForRadix arr f :=
      (radixPasses_perm sortKeyOf _ 0 _).mem_iff.mp ha
    have hbmem : b ∈ preprocessForRadix arr f :=
      (radixPasses_perm sortKeyOf _ 0 _).mem_iff.mp hb
    have hka : 0 ≤ sortKeyOf a := hpre_pos a hamem
    have hkb : 0 ≤ sortKeyOf b := hpre_pos b hbmem
    have hmax := lt_pow_numDigits (maxKey ((preprocessForRadix arr f).map sortKeyOf)).toNat
    have hlea : sortKeyOf a ≤ maxKey ((preprocessForRadix arr f).map sortKeyOf) :=
      le_maxKey _ _ (List.mem_map.mpr ⟨a, hamem, rfl⟩)
    have hleb : sortKeyOf b ≤ maxKey ((preprocessForRadix arr f).map sortKeyOf) :=
      le_maxKey _ _ (List.mem_map.mpr ⟨b, hbmem, rfl⟩)
    have hba : (sortKeyOf a).toNat <
        10 ^ numDigits (maxKey ((preprocessForRadix arr f).map sortKeyOf)).toNat := by omega
    have hbb : (sortKeyOf b).toNat <
        10 ^ numDigits (maxKey ((preprocessForRadix arr f).map sortKeyOf)).toNat := by omega
    rw [Nat.mod_eq_of_lt hba, Nat.mod_eq_of_lt hbb] at hle
    omega

theorem radixSort_stable (arr : List Transaction) (f : SortKey) (measured : ℚ) (v : Int)
    (h2 : 2 ≤ arr.length) :
    (radixSort arr f measured).sorted.filter (fun t => t.sortKey == some v) =
      (arr.filter fun t => encodeKey f t == v).map
        (fun t => { t with sortKey := some (encodeKey f t) }) := by
  rw [radixSort_run arr f measured (by omega)]
  have hq : ∀ x y : Transaction, (x.sortKey == some v) = true →
      (y.sortKey == some v) = true → sortKeyOf x = sortKeyOf y := by
    intro x y hx hy
    have hx2 : x.sortKey = some v := by simpa using hx
    have hy2 : y.sortKey = some v := by simpa using hy
    rw [sortKeyOf, sortKeyOf, hx2, hy2]
  rw [radixPasses_filter sortKeyOf _ hq _ 0 _]
  rw [preprocessForRadix, List.filter_map]
  congr 1

/-! ## Key encoder facts -/

theorem foldl_symbol_nonneg : ∀ (codes : List Nat) (acc : Int), 0 ≤ acc →
    0 ≤ codes.foldl (fun (a : Int) (c : Nat) => a * 256 + (c : Int)) acc
  | [], _, h => h
  | c :: cs, acc, h => by
    rw [List.foldl_cons]
    refine foldl_symbol_nonneg cs _ ?_
    have h1 : 0 ≤ acc * 256 := by positivity
    have h2 : (0 : Int) ≤ (c : Int) := Int.ofNat_nonneg c
    omega

theorem encodeSymbol_nonneg (codes : List Nat) : 0 ≤ encodeSymbol codes :=
  foldl_symbol_nonneg codes 0 le_rfl

theorem encodeKey_symbol_eq (t : Transaction) :
    encodeKey SortKey.symbol t = encodeSymbol t.symbol := rfl

theorem encodeKey_nonneg (f : SortKey) (t : Transaction) (hp : 0 ≤ t.price) :
    0 ≤ encodeKey f t := by
  cases f
  · refine Int.le_floor.mpr ?_
    push_cast
    exact mul_nonneg hp (by norm_num)
  · exact encodeSymbol_nonneg t.symbol
  · exact Int.ofNat_nonneg t.timestamp

theorem encodeKey_price_cents (t : Transaction) (c : Nat) (hc : t.price = (c : ℚ) / 100) :
    encodeKey SortKey.price t = (c : Int) := by
  rw [encodeKey, hc, div_mul_cancel₀ _ (by norm_num : (100 : ℚ) ≠ 0)]
  exact Int.floor_natCast c

theorem foldl_symbol_shift : ∀ (codes : List Nat) (acc : Int),
    codes.foldl (fun (a : Int) (c : Nat) => a * 256 + (c : Int)) acc =
      acc * 256 ^ codes.length + codes.foldl (fun (a : Int) (c : Nat) => a * 256 + (c : Int)) 0
  | [], acc => by simp
  | c :: cs, acc => by
    rw [List.foldl_cons, List.foldl_cons, foldl_symbol_shift cs (acc * 256 + (c : Int)),
      foldl_symbol_shift cs ((0 : Int) * 256 + (c : Int))]
    simp only [List.length_cons]
    ring

theorem encodeSymbol_cons (c : Nat) (cs : List Nat) :
    encodeSymbol (c :: cs) = (c : Int) * 256 ^ cs.length + encodeSymbol cs := by
  rw [encodeSymbol, List.foldl_cons, foldl_symbol_shift cs ((0 : Int) * 256 + (c : Int))]
  rw [encodeSymbol]
  ring

theorem encodeSymbol_lt_pow : ∀ (codes : List Nat), (∀ c ∈ codes, c < 256) →
    encodeSymbol codes < 256 ^ codes.length
  | [], _ => by simp [encodeSymbol]
  | c :: cs, h => by
    rw [encodeSymbol_cons, List.length_cons, pow_succ]
    have hc : (c : Int) < 256 := by
      have := h c (List.mem_cons_self c cs)
      omega
    have hcs : encodeSymbol cs < 256 ^ cs.length :=
      encodeSymbol_lt_pow cs fun x hx => h x (List.mem_cons_of_mem c hx)
    have hpow : (0 : Int) < 256 ^ cs.length := by positivity
    nlinarith

theorem encodeSymbol_order : ∀ (a b : List Nat), a.length = b.length →
    (∀ c ∈ a, c < 256) → (∀ c ∈ b, c < 256) →
    (encodeSymbol a ≤ encodeSymbol b ↔ lexLe a b = true)
  | [], [], _, _, _ => by simp [lexLe]
  | [], _ :: _, hlen, _, _ => by simp at hlen
  | _ :: _, [], hlen, _, _ => by simp at hlen
  | x :: xs, y :: ys, hlen, hx, hy => by
    have hlen2 : xs.length = ys.length := by simpa using hlen
    rw [encodeSymbol_cons, encodeSymbol_cons, lexLe, ← hlen2]
    have hxb : encodeSymbol xs < 256 ^ xs.length :=
      encodeSymbol_lt_pow xs fun c hc => hx c (List.mem_cons_of_mem x hc)
    have hyb : encodeSymbol ys < 256 ^ xs.length := by
      rw [hlen2]
      exact encodeSymbol_lt_pow ys fun c hc => hy c (List.mem_cons_of_mem y hc)
    have hxs0 : 0 ≤ encodeSymbol xs := encodeSymbol_nonneg xs
    have hys0 : 0 ≤ encodeSymbol ys := encodeSymbol_nonneg ys
    have hpow : (0 : Int) < 256 ^ xs.length := by positivity
    rcases Nat.lt_trichotomy x y with hxy | hxy | hxy
    · have hstep : ((x : Int) + 1) * 256 ^ xs.length ≤ (y : Int) * 256 ^ xs.length := by
        have : (x : Int) + 1 ≤ (y : Int) := by omega
        exact mul_le_mul_of_nonneg_right this (le_of_lt hpow)
      simp only [if_pos hxy, iff_true]
      nlinarith
    · subst hxy
      simp only [Nat.lt_irrefl, if_false]
      constructor
      · intro hle
        have hxys : encodeSymbol xs ≤ encodeSymbol ys := by nlinarith
        exact (encodeSymbol_order xs ys hlen2
          (fun c hc => hx c (List.mem_cons_of_mem x hc))
          (fun c hc => hy c (List.mem_cons_of_mem x hc))).mp hxys
      · intro hlex
        have hxys : encodeSymbol xs ≤ encodeSymbol ys :=
          (encodeSymbol_order xs ys hlen2
            (fun c hc => hx c (List.mem_cons_of_mem x hc))
            (fun c hc => hy c (List.mem_cons_of_mem x hc))).mpr hlex
        nlinarith
    · have hstep : ((y : Int) + 1) * 256 ^ xs.length ≤ (x : Int) * 256 ^ xs.length := by
        have : (y : Int) + 1 ≤ (x : Int) := by omega
        exact mul_le_mul_of_nonneg_right this (le_of_lt hpow)
      simp only [Nat.lt_asymm hxy, if_false, if_pos hxy]
      constructor
      · intro hle
        nlinarith
      · intro hfalse
        cases hfalse

/-! ## Scheduler tick, reset and history facts -/

theorem sliceLast_length (l : List α) (n : Nat) :
    (sliceLast l n).length = l.length - (l.length - n) := by
  rw [sliceLast, List.length_drop]

theorem tsxTick_below (method : SortMethod) (sortBy : SortKey) (s : EngineState)
    (batch : List Transaction) (rM mM : ℚ) (timeLabel : Nat)
    (h : (s.buffer ++ batch).length < 500) :
    tsxTick method sortBy s batch rM mM timeLabel =
      { s with
          buffer := s.buffer ++ batch
          currentStats :=
            { s.currentStats with
                totalTransactions := s.currentStats.totalTransactions + batch.length } } := by
  rw [tsxTick, if_neg (by omega)]

theorem p0Tick_below (method : SortMethod) (sortBy : SortKey) (s : EngineState)
    (batch : List Transaction) (rM mM : ℚ) (timeLabel : Nat)
    (h : (s.buffer ++ batch).length < 100) :
    p0Tick method sortBy s batch rM mM timeLabel =
      { s with
          buffer := s.buffer ++ batch
          currentStats :=
            { s.currentStats with
                totalTransactions := s.currentStats.totalTransactions + batch.length } } := by
  rw [p0Tick, if_neg (by omega)]

theorem tsxTick_flush (method : SortMethod) (sortBy : SortKey) (s : EngineState)
    (batch : List Transaction) (rM mM : ℚ) (timeLabel : Nat)
    (h : 500 ≤ (s.buffer ++ batch).length) :
    tsxTick method sortBy s batch rM mM timeLabel =
      { s with
          transactions := sliceLast (sliceLast s.transactions 1000 ++ (s.buffer ++ batch)) 2000
          sortedTransactions := sliceLast
            (match method with
              | .radix => (radixSort (s.buffer ++ batch) sortBy rM).sorted
              | .merge => (mergeSort (s.buffer ++ batch) sortBy mM).sorted) 500
          preprocessedData :=
            if (s.buffer ++ batch).length ≤ 1 then []
            else (preprocessForRadix (s.buffer ++ batch) sortBy).take 20
          performanceData := sliceLast s.performanceData 20 ++
            [{ time := timeLabel
               radixTime := s.currentStats.radixTime
               mergeTime := s.currentStats.mergeTime
               transactions := (s.buffer ++ batch).length
               totalTransactions :=
                 s.currentStats.totalTransactions + (s.buffer ++ batch).length }]
          currentStats :=
            { totalTransactions := s.currentStats.totalTransactions + (s.buffer ++ batch).length
              avgSortTime := (s.currentStats.radixTime + s.currentStats.mergeTime) / 2
              radixTime := (radixSort (s.buffer ++ batch) sortBy rM).time
              mergeTime := (mergeSort (s.buffer ++ batch) sortBy mM).time }
          buffer := [] } := by
  rw [tsxTick, if_pos h]

theorem p0Tick_flush (method : SortMethod) (sortBy : SortKey) (s : EngineState)
    (batch : List Transaction) (rM mM : ℚ) (timeLabel : Nat)
    (h : 100 ≤ (s.buffer ++ batch).length) :
    p0Tick method sortBy s batch rM mM timeLabel =
      { s with
          transactions := sliceLast (sliceLast s.transactions 1000 ++ (s.buffer ++ batch)) 2000
          sortedTransactions := sliceLast
            (match method with
              | .radix => (radixSort (s.buffer ++ batch) sortBy rM).sorted
              | .merge => (mergeSortP0 (s.buffer ++ batch) sortBy mM).sorted) 500
          performanceData := sliceLast s.performanceData 20 ++
            [{ time := timeLabel
               radixTime := (radixSort (s.buffer ++ batch) sortBy rM).time
               mergeTime := (mergeSortP0 (s.buffer ++ batch) sortBy mM).time
               transactions := (s.buffer ++ batch).length
               totalTransactions :=
                 s.currentStats.totalTransactions + (s.buffer ++ batch).length }]
          currentStats :=
            { totalTransactions := s.currentStats.totalTransactions + (s.buffer ++ batch).length
              avgSortTime := ((radixSort (s.buffer ++ batch) sortBy rM).time +
                (mergeSortP0 (s.buffer ++ batch) sortBy mM).time) / 2
              radixTime := (radixSort (s.buffer ++ batch) sortBy rM).time
              mergeTime := (mergeSortP0 (s.buffer ++ batch) sortBy mM).time }
          buffer := [] } := by
  rw [p0Tick, if_pos h]

/-! ## Claims -/

/-- C1 counterexample: sorting `[GOOGL, INTC]` by Symbol with the radix sort
yields `[INTC, GOOGL]`, which is not non-decreasing in the lexicographic
string order (INTC > GOOGL), so the claim as stated fails for `radixSort`
on the Symbol field. -/
theorem C1_counterexample :
    ¬ List.Pairwise (fun a b => fieldLe SortKey.symbol a b = true)
      ((radixSort [txGOOGL, txINTC] SortKey.symbol 3).sorted) := by
  decide

/-- C1 (amended): `mergeSort` returns a non-decreasing permutation for every
field; `radixSort` always returns a permutation of the input ids, and its
output is non-decreasing under the field ordering for Price (on two-decimal
prices, the data-model invariant) and Timestamp.  (For Symbol, radixSort
orders by the encoded key, which departs from lexicographic order across
symbols of different lengths — see the counterexample.) -/
theorem C1_amended :
    (∀ (arr : List Transaction) (f : SortKey) (m : ℚ),
      List.Pairwise (fun a b => fieldLe f a b = true) (mergeSort arr f m).sorted ∧
      List.Perm ((mergeSort arr f m).sorted.map Transaction.id) (arr.map Transaction.id)) ∧
    (∀ (arr : List Transaction) (f : SortKey) (m : ℚ),
      List.Perm ((radixSort arr f m).sorted.map Transaction.id) (arr.map Transaction.id)) ∧
    (∀ (arr : List Transaction) (m : ℚ),
      (∀ t ∈ arr, ∃ c : Nat, t.price = (c : ℚ) / 100) →
      List.Pairwise (fun a b => fieldLe SortKey.price a b = true)
        (radixSort arr SortKey.price m).sorted) ∧
    (∀ (arr : List Transaction) (m : ℚ),
      List.Pairwise (fun a b => fieldLe SortKey.timestamp a b = true)
        (radixSort arr SortKey.timestamp m).sorted) := by
  refine ⟨?_, ?_, ?_, ?_⟩
  · intro arr f m
    exact ⟨msort_sorted (fieldLe f) (fieldLe_total f) (fieldLe_trans f) arr,
      (msort_perm (fieldLe f) arr).map Transaction.id⟩
  · intro arr f m
    exact radixSort_perm_ids arr f m
  · intro arr m hval
    have hpos : ∀ t ∈ arr, 0 ≤ encodeKey SortKey.price t := by
      intro t ht
      obtain ⟨c, hc⟩ := hval t ht
      rw [encodeKey_price_cents t c hc]
      exact Int.ofNat_nonneg c
    by_cases hlen : arr.length ≤ 1
    · rw [radixSort_short _ _ _ hlen]
      match arr, hlen with
      | [], _ => exact List.Pairwise.nil
      | [a], _ => simp
    · have h2 : 2 ≤ arr.length := by omega
      refine (radixSort_sorted_key arr SortKey.price m hpos).imp_of_mem ?_
      intro a b ha hb hle
      have hka := radixSort_keys_set arr SortKey.price m h2 a ha
      have hkb := radixSort_keys_set arr SortKey.price m h2 b hb
      have hpa : ∃ c : Nat, a.price = (c : ℚ) / 100 := by
        have hmem := (radixSort_perm_preprocess arr SortKey.price m h2).mem_iff.mp ha
        rcases List.mem_map.mp hmem with ⟨orig, ho, rfl⟩
        exact hval orig ho
      have hpb : ∃ c : Nat, b.price = (c : ℚ) / 100 := by
        have hmem := (radixSort_perm_preprocess arr SortKey.price m h2).mem_iff.mp hb
        rcases List.mem_map.mp hmem with ⟨orig, ho, rfl⟩
        exact hval orig ho
      obtain ⟨ca, hca⟩ := hpa
      obtain ⟨cb, hcb⟩ := hpb
      have hsa : sortKeyOf a = (ca : Int) := by
        rw [sortKeyOf, hka, Option.getD_some, encodeKey_price_cents a ca hca]
      have hsb : sortKeyOf b = (cb : Int) := by
        rw [sortKeyOf, hkb, Option.getD_some, encodeKey_price_cents b cb hcb]
      rw [hsa, hsb] at hle
      have hcab : (ca : ℚ) ≤ (cb : ℚ) := by exact_mod_cast hle
      show decide (a.price ≤ b.price) = true
      simp only [decide_eq_true_eq]
      rw [hca, hcb]
      linarith
  · intro arr m
    have hpos : ∀ t ∈ arr, 0 ≤ encodeKey SortKey.timestamp t := by
      intro t _
      exact Int.ofNat_nonneg t.timestamp
    by_cases hlen : arr.length ≤ 1
    · rw [radixSort_short _ _ _ hlen]
      match arr, hlen with
      | [], _ => exact List.Pairwise.nil
      | [a], _ => simp
    · have h2 : 2 ≤ arr.length := by omega
      refine (radixSort_sorted_key arr SortKey.timestamp m hpos).imp_of_mem ?_
      intro a b ha hb hle
      have hka := radixSort_keys_set arr SortKey.timestamp m h2 a ha
      have hkb := radixSort_keys_set arr SortKey.timestamp m h2 b hb
      have hsa : sortKeyOf a = (a.timestamp : Int) := by
        rw [sortKeyOf, hka, Option.getD_some]
        rfl
      have hsb : sortKeyOf b = (b.timestamp : Int) := by
        rw [sortKeyOf, hkb, Option.getD_some]
        rfl
      rw [hsa, hsb] at hle
      show decide (a.timestamp ≤ b.timestamp) = true
      simp only [decide_eq_true_eq]
      exact_mod_cast hle

/-- C1 witness: the amended price conjunct applied to a concrete singleton
batch with a two-decimal price. -/
theorem C1_witness :
    List.Pairwise (fun a b => fieldLe SortKey.price a b = true)
      (radixSort [txPrice 0 1] SortKey.price 5).sorted :=
  C1_amended.2.2.1 [txPrice 0 1] 5
    (by
      intro t ht
      rcases List.mem_singleton.mp ht with rfl
      exact ⟨100, by norm_num [txPrice]⟩)

/-- C2: both sorts are stable.  For the radix sort, the subsequence of any
fixed encoded key in the output lists the same ids in the same order as the
input; for the merge sort, the subsequence of transactions whose field value
equals that of any pivot `w` is returned verbatim; and the concrete
`[100.00, 50.00, 100.00]` Price batch radix-sorts to `[50, 100, 100]` with
the two 100.00 entries (ids 0 then 2) in their original relative order. -/
theorem C2_stability :
    (∀ (arr : List Transaction) (f : SortKey) (m : ℚ) (v : Int), 2 ≤ arr.length →
      ((radixSort arr f m).sorted.filter fun t => t.sortKey == some v).map Transaction.id =
        (arr.filter fun t => encodeKey f t == v).map Transaction.id) ∧
    (∀ (arr : List Transaction) (f : SortKey) (m : ℚ) (w : Transaction),
      (mergeSort arr f m).sorted.filter (fun t => fieldLe f t w && fieldLe f w t) =
        arr.filter (fun t => fieldLe f t w && fieldLe f w t)) ∧
    ((radixSort [txPrice 0 100, txPrice 1 50, txPrice 2 100] SortKey.price 1).sorted.map
        Transaction.id = [1, 0, 2] ∧
      (radixSort [txPrice 0 100, txPrice 1 50, txPrice 2 100] SortKey.price 1).sorted.map
        Transaction.price = [50, 100, 100]) := by
  refine ⟨?_, ?_, ?_⟩
  · intro arr f m v h2
    rw [radixSort_stable arr f m v h2, List.map_map]
    rfl
  · intro arr f m w
    refine msort_filter (fieldLe f) _ (fieldLe_total f) (fieldLe_trans f) ?_ arr
    intro x y hx hy
    rcases Bool.and_eq_true _ _ |>.mp hx with ⟨hx1, _⟩
    rcases Bool.and_eq_true _ _ |>.mp hy with ⟨_, hy2⟩
    exact fieldLe_trans f x w y hx1 hy2
  · have h1 : encodeKey SortKey.price (txPrice 0 100) = 10000 := by
      rw [encodeKey]
      norm_num [txPrice]
    have h2 : encodeKey SortKey.price (txPrice 1 50) = 5000 := by
      rw [encodeKey]
      norm_num [txPrice]
    have h3 : encodeKey SortKey.price (txPrice 2 100) = 10000 := by
      rw [encodeKey]
      norm_num [txPrice]
    have hpre : preprocessForRadix [txPrice 0 100, txPrice 1 50, txPrice 2 100] SortKey.price =
        [{ txPrice 0 100 with sortKey := some 10000 },
         { txPrice 1 50 with sortKey := some 5000 },
         { txPrice 2 100 with sortKey := some 10000 }] := by
      rw [preprocessForRadix]
      simp only [List.map_cons, List.map_nil, h1, h2, h3]
    constructor
    · rw [radixSort_run _ _ _ (by decide), hpre]
      decide
    · rw [radixSort_run _ _ _ (by decide), hpre]
      decide

/-- C2 witness: the radix stability conjunct applied to the concrete scenario
batch at key 10000 (the two 100.00 entries). -/
theorem C2_witness :
    ((radixSort [txPrice 0 100, txPrice 1 50, txPrice 2 100] SortKey.price 1).sorted.filter
        fun t => t.sortKey == some 10000).map Transaction.id =
      ([txPrice 0 100, txPrice 1 50, txPrice 2 100].filter
        fun t => encodeKey SortKey.price t == 10000).map Transaction.id :=
  C2_stability.1 [txPrice 0 100, txPrice 1 50, txPrice 2 100] SortKey.price 1 10000 (by decide)

/-- C3: the TradeWiz.tsx `mergeSort` reports 2.5 times the measured duration
(`demonstrationTime = actualTime * 2.5` inside the core), contradicting the
spec; the part_000 variant reports the true measured duration.  At a measured
2 ms the TradeWiz.tsx core reports 5 ms. -/
theorem C3_merge_time_scaled :
    (∀ (arr : List Transaction) (f : SortKey) (m : ℚ),
      (mergeSort arr f m).time = m * (5 / 2)) ∧
    (∀ (arr : List Transaction) (f : SortKey) (m : ℚ),
      (mergeSortP0 arr f m).time = m) ∧
    (mergeSort [] SortKey.price 2).time = 5 ∧ ¬(mergeSort [] SortKey.price 2).time = 2 := by
  refine ⟨fun _ _ _ => rfl, fun _ _ _ => rfl, ?_, ?_⟩
  · show (2 : ℚ) * (5 / 2) = 5
    norm_num
  · show ¬(2 : ℚ) * (5 / 2) = 2
    norm_num

theorem radixSort_time (arr : List Transaction) (f : SortKey) (m : ℚ)
    (h : ¬arr.length ≤ 1) : (radixSort arr f m).time = m := by
  rw [radixSort_run arr f m h]

/-- C4: on a TradeWiz.tsx flush tick the engine stores the just-measured
durations into `radixTime`/`mergeTime`, but computes `avgSortTime` and the
appended PerformanceSample from the durations captured when the interval was
created — i.e. from the previous pass (initially 0), not from this pass.
The part_000 variant uses the durations of this very pass for both, as the
claim says. -/
theorem C4_stats_update (method : SortMethod) (sortBy : SortKey) (s : EngineState)
    (batch : List Transaction) (rM mM : ℚ) (timeLabel : Nat) :
    (500 ≤ (s.buffer ++ batch).length →
      (tsxTick method sortBy s batch rM mM timeLabel).currentStats.radixTime = rM ∧
      (tsxTick method sortBy s batch rM mM timeLabel).currentStats.mergeTime = mM * (5 / 2) ∧
      (tsxTick method sortBy s batch rM mM timeLabel).currentStats.avgSortTime =
        (s.currentStats.radixTime + s.currentStats.mergeTime) / 2 ∧
      (tsxTick method sortBy s batch rM mM timeLabel).performanceData =
        sliceLast s.performanceData 20 ++
          [{ time := timeLabel
             radixTime := s.currentStats.radixTime
             mergeTime := s.currentStats.mergeTime
             transactions := (s.buffer ++ batch).length
             totalTransactions :=
               s.currentStats.totalTransactions + (s.buffer ++ batch).length }]) ∧
    (100 ≤ (s.buffer ++ batch).length →
      (p0Tick method sortBy s batch rM mM timeLabel).currentStats.radixTime = rM ∧
      (p0Tick method sortBy s batch rM mM timeLabel).currentStats.mergeTime = mM ∧
      (p0Tick method sortBy s batch rM mM timeLabel).currentStats.avgSortTime = (rM + mM) / 2 ∧
      (p0Tick method sortBy s batch rM mM timeLabel).performanceData =
        sliceLast s.performanceData 20 ++
          [{ time := timeLabel
             radixTime := rM
             mergeTime := mM
             transactions := (s.buffer ++ batch).length
             totalTransactions :=
               s.currentStats.totalTransactions + (s.buffer ++ batch).length }]) := by
  constructor
  · intro h
    have hrt : (radixSort (s.buffer ++ batch) sortBy rM).time = rM :=
      radixSort_time _ _ _ (by omega)
    rw [tsxTick_flush method sortBy s batch rM mM timeLabel h]
    refine ⟨hrt, rfl, rfl, rfl⟩
  · intro h
    have hrt : (radixSort (s.buffer ++ batch) sortBy rM).time = rM :=
      radixSort_time _ _ _ (by omega)
    rw [p0Tick_flush method sortBy s batch rM mM timeLabel h]
    refine ⟨hrt, rfl, ?_, ?_⟩
    · show ((radixSort (s.buffer ++ batch) sortBy rM).time +
        (mergeSortP0 (s.buffer ++ batch) sortBy mM).time) / 2 = (rM + mM) / 2
      rw [hrt]
      rfl
    · rw [hrt]
      rfl

theorem batch500_len : (engineState0.buffer ++ batch500).length = 500 := by
  simp only [engineState0, batch500, List.length_append, List.length_replicate,
    List.length_nil, Nat.zero_add]

/-- C4 witness: from a state whose previous pass measured 1 ms and 3 ms, a
flush tick measuring 4 ms and 6 ms stores radixTime 4 but records average
(1 + 3) / 2 — the durations of the previous pass. -/
theorem C4_witness :
    500 ≤ (engineState0.buffer ++ batch500).length ∧
    (tsxTick SortMethod.radix SortKey.timestamp engineState0 batch500 4 6 0).currentStats.radixTime
      = 4 ∧
    (tsxTick SortMethod.radix SortKey.timestamp engineState0 batch500 4 6 0).currentStats.avgSortTime
      = (1 + 3) / 2 :=
  ⟨by rw [batch500_len], 
    (C4_stats_update SortMethod.radix SortKey.timestamp engineState0 batch500 4 6 0).1
      (by rw [batch500_len]) |>.1,
    (C4_stats_update SortMethod.radix SortKey.timestamp engineState0 batch500 4 6 0).1
      (by rw [batch500_len]) |>.2.2.1⟩

set_option maxRecDepth 4000 in
/-- C5: in both variants, a tick that leaves the buffer below the flush
threshold (500 in TradeWiz.tsx, 100 in part_000) changes nothing but the
buffer and the running total, which grows by the batch size; a tick that
reaches the threshold runs one pass over the whole buffer, surfaces its
sorted output, appends exactly one sample recording the whole buffer
length, and clears the buffer. -/
theorem C5_threshold (method : SortMethod) (sortBy : SortKey) (s : EngineState)
    (batch : List Transaction) (rM mM : ℚ) (timeLabel : Nat) :
    ((s.buffer ++ batch).length < 500 →
      (tsxTick method sortBy s batch rM mM timeLabel).currentStats.radixTime =
          s.currentStats.radixTime ∧
      (tsxTick method sortBy s batch rM mM timeLabel).currentStats.mergeTime =
          s.currentStats.mergeTime ∧
      (tsxTick method sortBy s batch rM mM timeLabel).currentStats.avgSortTime =
          s.currentStats.avgSortTime ∧
      (tsxTick method sortBy s batch rM mM timeLabel).performanceData = s.performanceData ∧
      (tsxTick method sortBy s batch rM mM timeLabel).sortedTransactions =
          s.sortedTransactions ∧
      (tsxTick method sortBy s batch rM mM timeLabel).currentStats.totalTransactions =
          s.currentStats.totalTransactions + batch.length ∧
      (tsxTick method sortBy s batch rM mM timeLabel).buffer = s.buffer ++ batch) ∧
    (500 ≤ (s.buffer ++ batch).length →
      (tsxTick method sortBy s batch rM mM timeLabel).buffer = [] ∧
      (tsxTick method sortBy s batch rM mM timeLabel).sortedTransactions =
        sliceLast
          (match method with
            | .radix => (radixSort (s.buffer ++ batch) sortBy rM).sorted
            | .merge => (mergeSort (s.buffer ++ batch) sortBy mM).sorted) 500 ∧
      (tsxTick method sortBy s batch rM mM timeLabel).performanceData =
        sliceLast s.performanceData 20 ++
          [{ time := timeLabel
             radixTime := s.currentStats.radixTime
             mergeTime := s.currentStats.mergeTime
             transactions := (s.buffer ++ batch).length
             totalTransactions :=
               s.currentStats.totalTransactions + (s.buffer ++ batch).length }]) ∧
    ((s.buffer ++ batch).length < 100 →
      (p0Tick method sortBy s batch rM mM timeLabel).currentStats.radixTime =
          s.currentStats.radixTime ∧
      (p0Tick method sortBy s batch rM mM timeLabel).currentStats.mergeTime =
          s.currentStats.mergeTime ∧
      (p0Tick method sortBy s batch rM mM timeLabel).currentStats.avgSortTime =
          s.currentStats.avgSortTime ∧
      (p0Tick method sortBy s batch rM mM timeLabel).performanceData = s.performanceData ∧
      (p0Tick method sortBy s batch rM mM timeLabel).sortedTransactions =
          s.sortedTransactions ∧
      (p0Tick method sortBy s batch rM mM timeLabel).currentStats.totalTransactions =
          s.currentStats.totalTransactions + batch.length ∧
      (p0Tick method sortBy s batch rM mM timeLabel).buffer = s.buffer ++ batch) ∧
    (100 ≤ (s.buffer ++ batch).length →
      (p0Tick method sortBy s batch rM mM timeLabel).buffer = [] ∧
      (p0Tick method sortBy s batch rM mM timeLabel).sortedTransactions =
        sliceLast
          (match method with
            | .radix => (radixSort (s.buffer ++ batch) sortBy rM).sorted
            | .merge => (mergeSortP0 (s.buffer ++ batch) sortBy mM).sorted) 500) := by
  refine ⟨?_, ?_, ?_, ?_⟩
  · intro h
    rw [tsxTick_below method sortBy s batch rM mM timeLabel h]
    exact ⟨rfl, rfl, rfl, rfl, rfl, rfl, rfl⟩
  · intro h
    rw [tsxTick_flush method sortBy s batch rM mM timeLabel h]
    exact ⟨rfl, rfl, rfl⟩
  · intro h
    rw [p0Tick_below method sortBy s batch rM mM timeLabel h]
    exact ⟨rfl, rfl, rfl, rfl, rfl, rfl, rfl⟩
  · intro h
    rw [p0Tick_flush method sortBy s batch rM mM timeLabel h]
    exact ⟨rfl, rfl⟩

/-- C5 witness: a single below-threshold tick on the concrete state leaves the
history empty and adds the batch of one transaction to the buffer. -/
theorem C5_witness :
    (tsxTick SortMethod.radix SortKey.price engineState0 [txPrice 0 1] 4 6 0).performanceData
        = engineState0.performanceData ∧
    (tsxTick SortMethod.radix SortKey.price engineState0 [txPrice 0 1] 4 6
        0).currentStats.totalTransactions =
      engineState0.currentStats.totalTransactions + 1 ∧
    (tsxTick SortMethod.radix SortKey.price engineState0 [txPrice 0 1] 4 6 0).buffer =
      engineState0.buffer ++ [txPrice 0 1] :=
  have h := (C5_threshold SortMethod.radix SortKey.price engineState0 [txPrice 0 1] 4 6 0).1
    (by decide)
  ⟨h.2.2.2.1, h.2.2.2.2.2.1, h.2.2.2.2.2.2⟩

/-- C6: `resetData` zeroes the running total, the durations and the average,
empties the history, the buffer and both transaction lists, forces the
scheduler Idle (`isRunning = false`), and a subsequent scheduler step on the
reset state is a no-op, whatever the prior state was. -/
theorem C6_reset (s : EngineState) :
    (resetData s).currentStats.totalTransactions = 0 ∧
    (resetData s).performanceData = [] ∧
    (resetData s).buffer = [] ∧
    (resetData s).transactions = [] ∧
    (resetData s).sortedTransactions = [] ∧
    (resetData s).currentStats.radixTime = 0 ∧
    (resetData s).currentStats.mergeTime = 0 ∧
    (resetData s).currentStats.avgSortTime = 0 ∧
    (resetData s).isRunning = false ∧
    (∀ (method : SortMethod) (sortBy : SortKey) (batch : List Transaction) (rM mM : ℚ)
      (timeLabel : Nat),
      schedStep method sortBy (resetData s) batch rM mM timeLabel = resetData s) := by
  refine ⟨rfl, rfl, rfl, rfl, rfl, rfl, rfl, rfl, rfl, ?_⟩
  intro method sortBy batch rM mM timeLabel
  rw [schedStep]
  rfl

/-- C7: for batches of length 0 or 1 both sorters return the input unchanged,
but only `radixSort` reports the literal duration 0; `mergeSort` has no early
exit and reports the measured elapsed time of the call (scaled by 2.5 in the
TradeWiz.tsx variant, unscaled in part_000), so at a measured 2 ms it reports
5 ms, not 0. -/
theorem C7_short_batch :
    (∀ (f : SortKey) (m : ℚ) (t : Transaction),
      radixSort [t] f m = { sorted := [t], time := 0 } ∧
      radixSort [] f m = { sorted := [], time := 0 } ∧
      (mergeSort [t] f m).sorted = [t] ∧
      (mergeSort [] f m).sorted = [] ∧
      (mergeSort [t] f m).time = m * (5 / 2) ∧
      (mergeSortP0 [t] f m).time = m) ∧
    (mergeSort [txPrice 0 1] SortKey.price 2).time = 5 ∧
    ¬(mergeSort [txPrice 0 1] SortKey.price 2).time = 0 := by
  refine ⟨?_, ?_, ?_⟩
  · intro f m t
    refine ⟨radixSort_short [t] f m (by simp), radixSort_short [] f m (by simp), ?_, ?_, rfl, rfl⟩
    · show msort (fieldLe f) [t] = [t]
      rw [msort]
    · show msort (fieldLe f) [] = []
      rw [msort]
  · show (2 : ℚ) * (5 / 2) = 5
    norm_num
  · show ¬(2 : ℚ) * (5 / 2) = 0
    norm_num

/-- C8: the symbol encoder is non-negative on every code list, injective
across the ten fixed ticker symbols, and on equal-length code lists (over
byte-sized code units) its numeric order coincides with lexicographic order;
in particular encode("AAPL") < encode("AAPM"). -/
theorem C8_encoder :
    (∀ codes : List Nat, 0 ≤ encodeSymbol codes) ∧
    (∀ s1 ∈ stockSymbols, ∀ s2 ∈ stockSymbols,
      encodeSymbol s1 = encodeSymbol s2 → s1 = s2) ∧
    (∀ a b : List Nat, a.length = b.length → (∀ c ∈ a, c < 256) → (∀ c ∈ b, c < 256) →
      (encodeSymbol a ≤ encodeSymbol b ↔ lexLe a b = true)) ∧
    encodeSymbol [65, 65, 80, 76] < encodeSymbol [65, 65, 80, 77] := by
  refine ⟨encodeSymbol_nonneg, by decide, encodeSymbol_order, by decide⟩

/-- C8 witness: the equal-length order agreement applied to the concrete
AAPL/AAPM code lists, and the injectivity conjunct applied to AAPL and AMD. -/
theorem C8_witness :
    (encodeSymbol [65, 65, 80, 76] ≤ encodeSymbol [65, 65, 80, 77] ↔
      lexLe [65, 65, 80, 76] [65, 65, 80, 77] = true) ∧
    (encodeSymbol [65, 65, 80, 76] = encodeSymbol [65, 77, 68] →
      [65, 65, 80, 76] = [65, 77, 68]) :=
  ⟨C8_encoder.2.2.1 [65, 65, 80, 76] [65, 65, 80, 77] rfl (by decide) (by decide),
   C8_encoder.2.1 [65, 65, 80, 76] (by decide) [65, 77, 68] (by decide)⟩

theorem pushIter_reachable : ∀ n, ReachableHistory (pushIter n)
  | 0 => ReachableHistory.init
  | n + 1 => ReachableHistory.step (pushIter n) sampleZero (pushIter_reachable n)

/-- C9 counterexample: a radix pass over two transactions returns the encoded
copies, whose `sortKey` field is still set (here `some 0` for both), so the
surfaced sorted output does not equal the input transactions with no retained
sortKey. -/
theorem C9_counterexample :
    (radixSort [txPrice 0 1, txPrice 1 2] SortKey.timestamp 1).sorted.map Transaction.sortKey =
      [some 0, some 0] ∧
    ¬(radixSort [txPrice 0 1, txPrice 1 2] SortKey.timestamp 1).sorted =
      [txPrice 0 1, txPrice 1 2] := by
  constructor
  · decide
  · decide

/-- C9 (amended): on batches of length ≥ 2 the radix-sorted output is a
permutation of the encoded copies of the input — every element agrees with
its originating transaction on all fields except `sortKey`, which remains set
to the key encoded for this pass — while batches of length ≤ 1 are returned
untouched; the merge-sorted output is a permutation of the original
transactions themselves. -/
theorem C9_amended (arr : List Transaction) (f : SortKey) (m : ℚ) :
    (arr.length ≤ 1 → (radixSort arr f m).sorted = arr) ∧
    (2 ≤ arr.length →
      List.Perm (radixSort arr f m).sorted (preprocessForRadix arr f) ∧
      ∀ t ∈ (radixSort arr f m).sorted, t.sortKey = some (encodeKey f t)) ∧
    List.Perm (mergeSort arr f m).sorted arr := by
  refine ⟨?_, ?_, msort_perm (fieldLe f) arr⟩
  · intro h
    rw [radixSort_short arr f m h]
  · intro h2
    exact ⟨radixSort_perm_preprocess arr f m h2, radixSort_keys_set arr f m h2⟩

/-- C9 witness: the amended statement applied to the concrete two-transaction
batch of the counterexample. -/
theorem C9_witness :
    List.Perm (radixSort [txPrice 0 1, txPrice 1 2] SortKey.timestamp 1).sorted
      (preprocessForRadix [txPrice 0 1, txPrice 1 2] SortKey.timestamp) ∧
    (radixSort [txPrice 0 1] SortKey.timestamp 1).sorted = [txPrice 0 1] :=
  ⟨((C9_amended [txPrice 0 1, txPrice 1 2] SortKey.timestamp 1).2.1 (by decide)).1,
   (C9_amended [txPrice 0 1] SortKey.timestamp 1).1 (by decide)⟩

/-- C10 counterexample: twenty-one consecutive appends from the empty history
are all reachable and leave a history of length 21, exceeding the claimed
bound of 20 — `[...prevData.slice(-20), sample]` keeps 20 old samples and
appends one. -/
theorem C10_counterexample :
    ReachableHistory (pushIter 21) ∧ 20 < (pushIter 21).length :=
  ⟨pushIter_reachable 21, by decide⟩

/-- C10 (amended): the trailing history is bounded by 21, not 20: every
update keeps at most the 20 most recent prior samples (evicting all older
ones) and appends the new one, so every reachable history has length at most
`min (previous length) 20 + 1 ≤ 21`. -/
theorem C10_amended :
    (∀ h : List Sample, ReachableHistory h → h.length ≤ 21) ∧
    (∀ (h : List Sample) (sample : Sample),
      (pushSample h sample).length = min h.length 20 + 1 ∧
      pushSample h sample = h.drop (h.length - 20) ++ [sample]) := by
  have hlen : ∀ (h : List Sample) (sample : Sample),
      (pushSample h sample).length = min h.length 20 + 1 := by
    intro h sample
    rw [pushSample, List.length_append, sliceLast_length]
    simp only [List.length_singleton]
    omega
  refine ⟨?_, fun h sample => ⟨hlen h sample, rfl⟩⟩
  intro h hr
  cases hr with
  | init => simp
  | step h0 sample hr0 =>
    rw [hlen h0 sample]
    omega

/-- C10 witness: the amended bound applied to the empty history and to the
21-step reachable history of the counterexample. -/
theorem C10_witness :
    ([] : List Sample).length ≤ 21 ∧ (pushIter 21).length ≤ 21 :=
  ⟨C10_amended.1 [] ReachableHistory.init,
   C10_amended.1 (pushIter 21) (pushIter_reachable 21)⟩

/-- C3 witness: the TradeWiz.tsx merge-time scaling evaluated at a measured
duration of 2 ms reports 5 ms. -/
theorem C3_witness : (mergeSort [] SortKey.price 2).time = 5 :=
  C3_merge_time_scaled.2.2.1

/-- C6 witness: reset applied to the concrete running state zeroes the total
and stops the scheduler. -/
theorem C6_witness :
    (resetData engineState0).currentStats.totalTransactions = 0 ∧
    (resetData engineState0).isRunning = false :=
  ⟨(C6_reset engineState0).1, (C6_reset engineState0).2.2.2.2.2.2.2.2.1⟩

/-- C7 witness: radixSort on a concrete singleton batch returns it unchanged
with duration exactly 0. -/
theorem C7_witness :
    radixSort [txPrice 0 1] SortKey.price 3 = { sorted := [txPrice 0 1], time := 0 } :=
  (C7_short_batch.1 SortKey.price 3 (txPrice 0 1)).1
